import Mathlib

/-!
Verification of the BigNum engine (`src/BigNum/BigNum/BigNum.c`).

A `Big` value is embedded as a `List Nat` of limbs in little-endian order
(index 0 = least significant), each limb standing for one `uint32_t`.  The
struct's `n` field is the list length; capacity and reallocation are memory
management with no effect on the abstract value and are not modelled.
Every store into a limb is truncated with `% B` exactly where the C code
casts to `uint32_t`; 64-bit intermediates are exact (their C counterparts
cannot overflow 64 bits for 32-bit limbs, which the theorems' boundedness
hypotheses capture).
-/

namespace BigNum

/-- The limb modulus: one limb is an unsigned 32-bit word. -/
def B : Nat := 2 ^ 32

/-- Numeric value of a limb list: sum of `limbs[i] * 2^(32*i)`. -/
def val (x : List Nat) : Nat := x.foldr (fun d acc => d + B * acc) 0

/-- All limbs fit in 32 bits (the `uint32_t` type invariant of the struct). -/
def Bounded (x : List Nat) : Prop := ∀ l ∈ x, l < B

/-- C `big_normalize`: decrement `n` while `n > 0` and the top limb is zero.
The end of the list is the most-significant side. -/
def big_normalize : List Nat → List Nat
  | [] => []
  | d :: rest =>
    if big_normalize rest = [] then (if d = 0 then [] else [d])
    else d :: big_normalize rest

/-- C `big_zero`: the canonical zero form, one zero limb. -/
def big_zero : List Nat := [0]

/-- The caller pattern `big_normalize(x); if (x->n == 0) big_zero(x);` used at
the end of `big_from_dec` and `big_mul`. -/
def fixZero (x : List Nat) : List Nat := if x = [] then big_zero else x

/-- The loop of C `big_mul10_add`: limb by limb, `cur = limb*10 + carry`,
store the low 32 bits, pass the high bits on; returns the final carry. -/
def mul10Loop (carry : Nat) : List Nat → List Nat × Nat
  | [] => ([], carry)
  | d :: rest =>
    let cur := d * 10 + carry
    let p := mul10Loop (cur / B) rest
    (cur % B :: p.1, p.2)

/-- C `big_mul10_add`: `x := x*10 + digit`.  A length-0 buffer is first reset
to canonical zero (the C safety branch); a remaining nonzero carry is appended
as one new limb through the `uint32_t` cast. -/
def big_mul10_add (x : List Nat) (digit : Nat) : List Nat :=
  let x0 := if x = [] then big_zero else x
  let p := mul10Loop digit x0
  if p.2 ≠ 0 then p.1 ++ [p.2 % B] else p.1

/-- C `isspace` on ASCII bytes: space (32), tab (9), newline (10),
vertical tab (11), form feed (12), carriage return (13). -/
def isSpaceC (c : Char) : Bool := c.toNat = 32 || (9 ≤ c.toNat && c.toNat ≤ 13)

/-- C `isdigit` on ASCII bytes: codes 48 (`0`) through 57 (`9`). -/
def isDigitC (c : Char) : Bool := 48 ≤ c.toNat && c.toNat ≤ 57

/-- The digit-scanning loop of C `big_from_dec`: stop at whitespace or end of
string, fail on any other non-digit, otherwise accumulate `*s - '0'`. -/
def fromDecLoop (x : List Nat) : List Char → Option (List Nat)
  | [] => some x
  | c :: rest =>
    if isSpaceC c then some x
    else if isDigitC c then fromDecLoop (big_mul10_add x (c.toNat - 48)) rest
    else none

/-- The position where C `big_from_dec` starts its digit scan: the input
pointer after `while (isspace(*s)) ++s;` and `if (*s == '+') ++s;`. -/
def scanStart (s : List Char) : List Char :=
  if (s.dropWhile isSpaceC).head? = some '+' then (s.dropWhile isSpaceC).tail
  else s.dropWhile isSpaceC

/-- C `big_from_dec`: start from canonical zero, skip leading whitespace, skip
one optional `+`, require a digit next (`*s` of an exhausted string is the NUL
character, not a digit), run the digit loop, then normalize and restore
canonical zero if the length dropped to 0.  `none` models return 0. -/
def big_from_dec (s : List Char) : Option (List Nat) :=
  if isDigitC ((scanStart s).headD (Char.ofNat 0)) then
    match fromDecLoop big_zero (scanStart s) with
    | some x => some (fixZero (big_normalize x))
    | none => none
  else none

/-- One row of C `big_mul`: for each limb of `bd`, the widened
`z[pos] + ai*bj + carry`, low 32 bits stored, high bits carried; after the
inner loop the remaining carry is added into the next position through a
`uint32_t` cast. -/
def mulRow (z : List Nat) (ai : Nat) : List Nat → Nat → Nat → List Nat
  | [], pos, carry => z.set pos ((z.getD pos 0 + carry) % B)
  | bj :: brest, pos, carry =>
    let sum := z.getD pos 0 + ai * bj + carry
    mulRow (z.set pos (sum % B)) ai brest (pos + 1) (sum / B)

/-- The outer loop of C `big_mul`: one row per limb of `a`. -/
def mulRows (z : List Nat) : List Nat → List Nat → Nat → List Nat
  | [], _, _ => z
  | ai :: arest, bd, i => mulRows (mulRow z ai bd i 0) arest bd (i + 1)

/-- C `big_mul`: zero short-circuit when an operand is empty or canonical
zero, else `an + bn` zero limbs accumulated by the schoolbook loops, then
normalize and restore canonical zero if the length dropped to 0. -/
def big_mul (a b : List Nat) : List Nat :=
  if a = [] ∨ b = [] ∨ a = big_zero ∨ b = big_zero then big_zero
  else
    fixZero (big_normalize (mulRows (List.replicate (a.length + b.length) 0) a b 0))

/-- `printf "%x"`: minimal lowercase hexadecimal digits; 0 prints as `0`. -/
def hexMin (n : Nat) : String := String.mk (Nat.toDigits 16 n)

/-- `printf "%08x"`: lowercase hexadecimal, left-padded with `0` to 8 digits. -/
def hexPad8 (n : Nat) : String :=
  String.mk (List.replicate (8 - (Nat.toDigits 16 n).length) '0' ++ Nat.toDigits 16 n)

/-- The full line C `big_print_hex` writes (without the trailing newline):
`0x0` for an empty or canonical-zero buffer, else `0x`, the top limb without
padding, then the remaining limbs most- to least-significant, 8 digits each. -/
def big_print_hex (x : List Nat) : String :=
  if x = [] ∨ x = big_zero then "0x0"
  else
    match x.reverse with
    | [] => "0x0"
    | top :: rest => "0x" ++ hexMin top ++ String.join (rest.map hexPad8)

/-- Invariants I1 and I2 plus the limb type bound, for a produced value:
nonempty, no most-significant zero limb when longer than one limb, limbs
below `2^32`. -/
@[reducible] def GoodBig (x : List Nat) : Prop :=
  x ≠ [] ∧ (1 < x.length → x.getLastD 0 ≠ 0) ∧ ∀ l ∈ x, l < B

/-- Invariants I1 and I2 exactly as claim C8 words them: length at least 1,
top limb nonzero when the length exceeds 1, and the value zero represented
only by the single zero limb. -/
@[reducible] def InvariantI12 (x : List Nat) : Prop :=
  1 ≤ x.length ∧ (1 < x.length → x.getLastD 0 ≠ 0) ∧ (val x = 0 → x = big_zero)

/-- The value denoted by a run of decimal digit characters, accumulated the
way the spec words the step: `result = result * 10 + digit`. -/
def decimalAcc (v : Nat) (ds : List Char) : Nat :=
  ds.foldl (fun a c => 10 * a + (c.toNat - 48)) v

/-- Modelled from the words of claim C6: the parse-failure condition.  After
optional leading whitespace and at most one `+`, the next character is not a
decimal digit (an exhausted input has no next character), or a character that
is neither a digit nor whitespace appears with only digits before it, i.e.
before the digit run is terminated by whitespace or the end of the string. -/
def badDecInput (s : List Char) : Prop :=
  (∀ c, (scanStart s).head? = some c → isDigitC c = false)
  ∨ ∃ pre c post, scanStart s = pre ++ c :: post
      ∧ (∀ d ∈ pre, isDigitC d = true) ∧ isSpaceC c = false ∧ isDigitC c = false

/-- The inner product row with the final carry store kept exact (no
`uint32_t` cast on `z->d[i+bn] + carry`).  Claim C7 says truncation there
loses nothing; that is stated as `mulRow = mulRowX` on canonical inputs. -/
def mulRowX (z : List Nat) (ai : Nat) : List Nat → Nat → Nat → List Nat
  | [], pos, carry => z.set pos (z.getD pos 0 + carry)
  | bj :: brest, pos, carry =>
    let sum := z.getD pos 0 + ai * bj + carry
    mulRowX (z.set pos (sum % B)) ai brest (pos + 1) (sum / B)

/-- The outer loop built on the exact-final-add row. -/
def mulRowsX (z : List Nat) : List Nat → List Nat → Nat → List Nat
  | [], _, _ => z
  | ai :: arest, bd, i => mulRowsX (mulRowX z ai bd i 0) arest bd (i + 1)

/-- Modelled from the spec's §4.5 words (the refinement reference for C5):
zero renders as the literal `0x0`; otherwise the most-significant limb without
padding after `0x`, then each remaining limb, most- to least-significant, as
exactly 8 zero-padded lowercase hex digits, with no separators. -/
def to_hex_spec (x : List Nat) : String :=
  if val x = 0 then "0x0"
  else "0x" ++ hexMin (x.getLastD 0) ++ String.join ((x.dropLast.reverse).map hexPad8)

/-! ### Basic facts about `val`, `big_normalize`, `fixZero` -/

theorem B_pos : 0 < B := by norm_num [B]

theorem one_lt_B : 1 < B := by norm_num [B]

theorem val_nil : val [] = 0 := rfl

theorem val_cons (d : Nat) (x : List Nat) : val (d :: x) = d + B * val x := rfl

theorem val_eq_zero_iff (x : List Nat) : val x = 0 ↔ ∀ l ∈ x, l = 0 := by
  induction x with
  | nil => simp [val_nil]
  | cons d rest ih =>
    rw [val_cons]
    constructor
    · intro h
      have hd : d = 0 := by omega
      have hrest : B * val rest = 0 := by omega
      have hv : val rest = 0 := by
        have hB := B_pos
        rcases Nat.mul_eq_zero.mp hrest with h1 | h1
        · omega
        · exact h1
      intro l hl
      rcases List.mem_cons.mp hl with rfl | hl
      · exact hd
      · exact (ih.mp hv) l hl
    · intro h
      have hd : d = 0 := h d (List.mem_cons_self d rest)
      have hv : val rest = 0 := ih.mpr fun l hl => h l (List.mem_cons_of_mem d hl)
      simp [hd, hv]

theorem big_normalize_eq_nil_iff (x : List Nat) :
    big_normalize x = [] ↔ ∀ l ∈ x, l = 0 := by
  induction x with
  | nil => simp [big_normalize]
  | cons d rest ih =>
    constructor
    · intro h
      simp only [big_normalize] at h
      by_cases hn : big_normalize rest = []
      · rw [if_pos hn] at h
        by_cases hd : d = 0
        · intro l hl
          rcases List.mem_cons.mp hl with rfl | hl
          · exact hd
          · exact ih.mp hn l hl
        · rw [if_neg hd] at h; cases h
      · rw [if_neg hn] at h; cases h
    · intro h
      have hd : d = 0 := h d (List.mem_cons_self d rest)
      have hn : big_normalize rest = [] :=
        ih.mpr fun l hl => h l (List.mem_cons_of_mem d hl)
      simp [big_normalize, hn, hd]

theorem val_big_normalize (x : List Nat) : val (big_normalize x) = val x := by
  induction x with
  | nil => rfl
  | cons d rest ih =>
    by_cases hn : big_normalize rest = []
    · have hz : val rest = 0 := by rw [← ih, hn, val_nil]
      by_cases hd : d = 0 <;>
        simp [big_normalize, hn, hd, val_cons, val_nil, hz]
    · simp [big_normalize, hn, val_cons, ih]

theorem big_normalize_getLastD (x : List Nat) :
    big_normalize x = [] ∨ (big_normalize x).getLastD 0 ≠ 0 := by
  induction x with
  | nil => exact Or.inl rfl
  | cons d rest ih =>
    by_cases hn : big_normalize rest = []
    · by_cases hd : d = 0
      · left; simp [big_normalize, hn, hd]
      · right; simp [big_normalize, hn, hd]
    · right
      rcases ih with h | h
      · exact absurd h hn
      · simp only [big_normalize, if_neg hn]
        rcases hr : big_normalize rest with _ | ⟨a, r⟩
        · exact absurd hr hn
        · rw [hr] at h
          have hsome : (a :: r).getLast? = some ((a :: r).getLast (List.cons_ne_nil a r)) :=
            List.getLast?_eq_getLast _ _
          simp only [List.getLastD_cons, List.getLastD_eq_getLast?, hsome,
            Option.getD_some] at h ⊢
          exact h

theorem mem_big_normalize {x : List Nat} {l : Nat} (h : l ∈ big_normalize x) :
    l ∈ x := by
  induction x with
  | nil => simp [big_normalize] at h
  | cons d rest ih =>
    simp only [big_normalize] at h
    by_cases hn : big_normalize rest = []
    · rw [if_pos hn] at h
      by_cases hd : d = 0
      · rw [if_pos hd] at h; cases h
      · rw [if_neg hd, List.mem_singleton] at h
        exact h ▸ List.mem_cons_self d rest
    · rw [if_neg hn] at h
      rcases List.mem_cons.mp h with rfl | h
      · exact List.mem_cons_self l rest
      · exact List.mem_cons_of_mem d (ih h)

theorem dropWhile_append_singleton (p : Nat → Bool) (l : List Nat) (d : Nat) :
    (l ++ [d]).dropWhile p =
      if l.dropWhile p = [] then (if p d then [] else [d])
      else l.dropWhile p ++ [d] := by
  induction l with
  | nil => cases hpd : p d <;> simp [List.dropWhile, hpd]
  | cons a l ih =>
    by_cases ha : p a
    · simpa [List.dropWhile_cons, ha] using ih
    · simp [List.dropWhile_cons, ha]

/-- `big_normalize` is exactly the C while-loop: it removes the maximal run of
zero limbs at the most-significant end. -/
theorem big_normalize_eq_trim (x : List Nat) :
    big_normalize x = (x.reverse.dropWhile (fun d => d == 0)).reverse := by
  induction x with
  | nil => rfl
  | cons d rest ih =>
    have hrev : rest.reverse.dropWhile (fun d => d == 0) =
        (big_normalize rest).reverse := by
      rw [ih, List.reverse_reverse]
    rw [List.reverse_cons, dropWhile_append_singleton, hrev]
    by_cases hn : big_normalize rest = []
    · have : (big_normalize rest).reverse = ([] : List Nat) := by rw [hn]; rfl
      rw [this]
      by_cases hd : d = 0 <;>
        simp [big_normalize, hn, hd]
    · have hne : (big_normalize rest).reverse ≠ ([] : List Nat) := by
        simpa using hn
      rw [if_neg hne, List.reverse_append, List.reverse_reverse]
      simp only [big_normalize, if_neg hn, List.reverse_cons, List.reverse_nil,
        List.nil_append, List.singleton_append]

theorem fixZero_ne_nil (x : List Nat) : fixZero x ≠ [] := by
  by_cases h : x = [] <;> simp [fixZero, h, big_zero]

theorem val_big_zero : val big_zero = 0 := rfl

theorem val_fixZero_normalize (x : List Nat) :
    val (fixZero (big_normalize x)) = val x := by
  by_cases h : big_normalize x = []
  · rw [fixZero, if_pos h, val_big_zero, ← val_big_normalize, h, val_nil]
  · rw [fixZero, if_neg h, val_big_normalize]

theorem getLastD_mem {x : List Nat} (h : x ≠ []) : x.getLastD 0 ∈ x := by
  rw [List.getLastD_eq_getLast?, List.getLast?_eq_getLast x h]
  exact List.getLast_mem h

theorem val_pos_of_getLastD {x : List Nat} (hne : x ≠ [])
    (h : x.getLastD 0 ≠ 0) : 0 < val x := by
  rcases Nat.eq_zero_or_pos (val x) with h0 | h0
  · exact absurd (((val_eq_zero_iff x).mp h0) _ (getLastD_mem hne)) h
  · exact h0

/-- Everything normalize-then-fix produces satisfies I1/I2 (and limb bounds,
given bounds on the input). -/
theorem goodBig_fixZero_normalize (x : List Nat) (hb : ∀ l ∈ x, l < B) :
    GoodBig (fixZero (big_normalize x)) := by
  by_cases h : big_normalize x = []
  · rw [fixZero, if_pos h]
    refine ⟨by simp [big_zero], by simp [big_zero], ?_⟩
    intro l hl
    rw [big_zero, List.mem_singleton] at hl
    exact hl ▸ B_pos
  · rw [fixZero, if_neg h]
    refine ⟨h, fun _ => ?_, fun l hl => hb l (mem_big_normalize hl)⟩
    rcases big_normalize_getLastD x with h1 | h1
    · exact absurd h1 h
    · exact h1

theorem fixZero_normalize_eq_zero {x : List Nat}
    (h : val (fixZero (big_normalize x)) = 0) :
    fixZero (big_normalize x) = big_zero := by
  by_cases hn : big_normalize x = []
  · rw [fixZero, if_pos hn]
  · rw [fixZero, if_neg hn] at h ⊢
    rcases big_normalize_getLastD x with h1 | h1
    · exact absurd h1 hn
    · have := val_pos_of_getLastD hn h1
      omega

/-! ### The multiply-by-ten-and-add step and the decimal parser -/

theorem val_append_singleton (l : List Nat) (c : Nat) :
    val (l ++ [c]) = val l + c * B ^ l.length := by
  induction l with
  | nil => simp [val_nil, val_cons]
  | cons d rest ih =>
    simp only [List.cons_append, val_cons, ih, List.length_cons, pow_succ]
    ring

theorem mul10Loop_spec (x : List Nat) : ∀ carry : Nat,
    val (mul10Loop carry x).1 + (mul10Loop carry x).2 * B ^ x.length
      = 10 * val x + carry
    ∧ (mul10Loop carry x).1.length = x.length
    ∧ (∀ l ∈ (mul10Loop carry x).1, l < B)
    ∧ ((∀ l ∈ x, l < B) → carry < B → (mul10Loop carry x).2 < B) := by
  induction x with
  | nil =>
    intro carry
    refine ⟨by simp [mul10Loop, val_nil], rfl, by simp [mul10Loop], fun _ h => h⟩
  | cons d rest ih =>
    intro carry
    obtain ⟨ih1, ih2, ih3, ih4⟩ := ih ((d * 10 + carry) / B)
    refine ⟨?_, ?_, ?_, ?_⟩
    · show val ((d * 10 + carry) % B :: (mul10Loop ((d * 10 + carry) / B) rest).1)
        + (mul10Loop ((d * 10 + carry) / B) rest).2 * B ^ (d :: rest).length
        = 10 * val (d :: rest) + carry
      rw [val_cons, val_cons, List.length_cons, pow_succ]
      calc (d * 10 + carry) % B + B * val (mul10Loop ((d * 10 + carry) / B) rest).1
            + (mul10Loop ((d * 10 + carry) / B) rest).2 * (B ^ rest.length * B)
          = (d * 10 + carry) % B
            + B * (val (mul10Loop ((d * 10 + carry) / B) rest).1
              + (mul10Loop ((d * 10 + carry) / B) rest).2 * B ^ rest.length) := by
            ring
        _ = (d * 10 + carry) % B + B * (10 * val rest + (d * 10 + carry) / B) := by
            rw [ih1]
        _ = (B * ((d * 10 + carry) / B) + (d * 10 + carry) % B) + 10 * (B * val rest) := by
            ring
        _ = (d * 10 + carry) + 10 * (B * val rest) := by rw [Nat.div_add_mod]
        _ = 10 * (d + B * val rest) + carry := by ring
    · show ((d * 10 + carry) % B :: (mul10Loop ((d * 10 + carry) / B) rest).1).length
        = (d :: rest).length
      rw [List.length_cons, List.length_cons, ih2]
    · intro l hl
      rcases List.mem_cons.mp hl with rfl | hl
      · exact Nat.mod_lt _ B_pos
      · exact ih3 l hl
    · intro hb hc
      have hd : d < B := hb d (List.mem_cons_self d rest)
      have h11 : 11 * B ≤ B * B := Nat.mul_le_mul_right B (by norm_num [B])
      have hcur : (d * 10 + carry) / B < B := by
        rw [Nat.div_lt_iff_lt_mul B_pos]
        omega
      exact ih4 (fun l hl => hb l (List.mem_cons_of_mem d hl)) hcur

theorem big_mul10_add_spec (x : List Nat) (digit : Nat)
    (hb : ∀ l ∈ x, l < B) (hd : digit < B) :
    val (big_mul10_add x digit) = 10 * val x + digit
    ∧ (∀ l ∈ big_mul10_add x digit, l < B)
    ∧ big_mul10_add x digit ≠ [] := by
  have hb0 : ∀ l ∈ (if x = [] then big_zero else x), l < B := by
    by_cases h : x = []
    · rw [if_pos h]
      intro l hl
      rw [big_zero, List.mem_singleton] at hl
      exact hl ▸ B_pos
    · rw [if_neg h]; exact hb
  have hv0 : val (if x = [] then big_zero else x) = val x := by
    by_cases h : x = [] <;> simp [h, big_zero, val_cons, val_nil]
  have hl0 : 0 < (if x = [] then big_zero else x).length := by
    by_cases h : x = []
    · rw [if_pos h]; exact Nat.zero_lt_one
    · rw [if_neg h]; exact List.length_pos.mpr h
  obtain ⟨h1, h2, h3, h4⟩ := mul10Loop_spec (if x = [] then big_zero else x) digit
  have hc : (mul10Loop digit (if x = [] then big_zero else x)).2 < B := h4 hb0 hd
  simp only [big_mul10_add]
  by_cases hz : (mul10Loop digit (if x = [] then big_zero else x)).2 ≠ 0
  · rw [if_pos hz]
    refine ⟨?_, ?_, by simp⟩
    · rw [val_append_singleton, Nat.mod_eq_of_lt hc, h2, ← hv0, ← h1]
    · intro l hl
      rcases List.mem_append.mp hl with hl | hl
      · exact h3 l hl
      · rw [List.mem_singleton] at hl
        exact hl ▸ Nat.mod_lt _ B_pos
  · rw [if_neg hz]
    push_neg at hz
    refine ⟨?_, h3, ?_⟩
    · rw [← hv0, ← h1, hz, Nat.zero_mul, Nat.add_zero]
    · intro hnil
      have hlen := h2
      rw [hnil] at hlen
      simp only [List.length_nil] at hlen
      omega

theorem isDigitC_not_isSpaceC {c : Char} (h : isDigitC c = true) :
    isSpaceC c = false := by
  simp only [isDigitC, Bool.and_eq_true, decide_eq_true_eq] at h
  simp only [isSpaceC, Bool.or_eq_false_iff, Bool.and_eq_false_iff,
    decide_eq_false_iff_not]
  omega

theorem isDigitC_ne_plus {c : Char} (h : isDigitC c = true) : c ≠ '+' := by
  simp only [isDigitC, Bool.and_eq_true, decide_eq_true_eq] at h
  intro hc
  rw [hc] at h
  have h43 : ('+').toNat = 43 := rfl
  omega

theorem isDigitC_toNat_lt {c : Char} (h : isDigitC c = true) : c.toNat - 48 < B := by
  simp only [isDigitC, Bool.and_eq_true, decide_eq_true_eq] at h
  have h9 : (9 : Nat) < B := by norm_num [B]
  omega

theorem fromDecLoop_digits (ds : List Char) : ∀ (x : List Nat) (rest : List Char),
    (∀ c ∈ ds, isDigitC c = true) →
    (rest = [] ∨ ∃ c t, rest = c :: t ∧ isSpaceC c = true) →
    (∀ l ∈ x, l < B) → x ≠ [] →
    ∃ y, fromDecLoop x (ds ++ rest) = some y
      ∧ val y = decimalAcc (val x) ds
      ∧ (∀ l ∈ y, l < B) ∧ y ≠ [] := by
  induction ds with
  | nil =>
    intro x rest _ hrest hb hne
    rcases hrest with rfl | ⟨c, t, rfl, hc⟩
    · exact ⟨x, rfl, rfl, hb, hne⟩
    · exact ⟨x, by simp [fromDecLoop, hc], rfl, hb, hne⟩
  | cons d ds ih =>
    intro x rest hds hrest hb hne
    have hdd : isDigitC d = true := hds d (List.mem_cons_self _ _)
    have hsp : isSpaceC d = false := isDigitC_not_isSpaceC hdd
    obtain ⟨h1, h2, h3⟩ := big_mul10_add_spec x (d.toNat - 48) hb (isDigitC_toNat_lt hdd)
    obtain ⟨y, hy1, hy2, hy3, hy4⟩ :=
      ih (big_mul10_add x (d.toNat - 48)) rest
        (fun c hc => hds c (List.mem_cons_of_mem _ hc)) hrest h2 h3
    refine ⟨y, ?_, ?_, hy3, hy4⟩
    · rw [List.cons_append, fromDecLoop, hsp, hdd]
      simpa using hy1
    · rw [hy2, h1]
      rfl

theorem dropWhile_append_all (p : Char → Bool) (t : List Char) :
    ∀ ws : List Char, (∀ c ∈ ws, p c = true) →
    (ws ++ t).dropWhile p = t.dropWhile p := by
  intro ws
  induction ws with
  | nil => intro _; rfl
  | cons a ws ih =>
    intro h
    rw [List.cons_append, List.dropWhile_cons, if_pos (h a (List.mem_cons_self _ _))]
    exact ih fun c hc => h c (List.mem_cons_of_mem _ hc)

theorem isSpaceC_plus : isSpaceC '+' = false := rfl

/-- Successful-parse helper: on a well-formed input (leading whitespace, one
optional `+`, a nonempty digit run, then nothing or a whitespace-led tail)
`big_from_dec` returns a buffer whose value is the digit run's base-10
value. -/
theorem from_dec_shape_some (ws sign digits rest : List Char)
    (hws : ∀ c ∈ ws, isSpaceC c = true)
    (hsign : sign = [] ∨ sign = '+' :: [])
    (hne : digits ≠ []) (hd : ∀ c ∈ digits, isDigitC c = true)
    (hrest : rest = [] ∨ ∃ c t, rest = c :: t ∧ isSpaceC c = true) :
    ∃ x, big_from_dec (ws ++ (sign ++ (digits ++ rest))) = some x
      ∧ val x = decimalAcc 0 digits := by
  rcases List.exists_cons_of_ne_nil hne with ⟨d0, ds, rfl⟩
  have hd0 : isDigitC d0 = true := hd d0 (List.mem_cons_self _ _)
  obtain ⟨y, hy1, hy2, hy3, hy4⟩ :=
    fromDecLoop_digits (d0 :: ds) big_zero rest hd hrest
      (fun l hl => by rw [big_zero, List.mem_singleton] at hl; exact hl ▸ B_pos)
      (by simp [big_zero])
  have hs1 : (ws ++ (sign ++ ((d0 :: ds) ++ rest))).dropWhile isSpaceC
      = sign ++ ((d0 :: ds) ++ rest) := by
    rw [dropWhile_append_all _ _ ws hws]
    rcases hsign with rfl | rfl
    · rw [List.nil_append, List.cons_append, List.dropWhile_cons,
        if_neg (by rw [isDigitC_not_isSpaceC hd0]; exact Bool.false_ne_true),
        ← List.cons_append]
    · rw [List.cons_append, List.dropWhile_cons,
        if_neg (by rw [isSpaceC_plus]; exact Bool.false_ne_true), List.nil_append]
  have hs2 : (if (sign ++ ((d0 :: ds) ++ rest)).head? = some '+'
        then (sign ++ ((d0 :: ds) ++ rest)).tail
        else sign ++ ((d0 :: ds) ++ rest))
      = (d0 :: ds) ++ rest := by
    rcases hsign with rfl | rfl
    · rw [List.nil_append, List.cons_append, List.head?_cons,
        if_neg (fun h => isDigitC_ne_plus hd0 (Option.some.inj h)),
        ← List.cons_append]
    · rw [List.cons_append, List.head?_cons, if_pos rfl, List.tail_cons,
        List.nil_append]
  refine ⟨fixZero (big_normalize y), ?_, ?_⟩
  · simp only [big_from_dec, scanStart, hs1, hs2]
    rw [hy1]
    simp only [List.cons_append, List.headD_cons, hd0, if_true]
  · rw [val_fixZero_normalize, hy2]
    rfl

/-- Failure characterization of the scanning loop: independent of the buffer,
it fails exactly when a character that is neither a digit nor whitespace
occurs with only digits before it. -/
theorem fromDecLoop_none_iff (u : List Char) : ∀ x : List Nat,
    (fromDecLoop x u = none ↔
      ∃ pre c post, u = pre ++ c :: post ∧ (∀ d ∈ pre, isDigitC d = true)
        ∧ isSpaceC c = false ∧ isDigitC c = false) := by
  induction u with
  | nil =>
    intro x
    constructor
    · intro h; cases h
    · rintro ⟨pre, c, post, h, -, -, -⟩
      cases pre <;> simp at h
  | cons a u ih =>
    intro x
    constructor
    · intro h
      rw [fromDecLoop] at h
      by_cases hsp : isSpaceC a = true
      · rw [if_pos hsp] at h; cases h
      · rw [if_neg hsp] at h
        by_cases hdg : isDigitC a = true
        · rw [if_pos hdg] at h
          obtain ⟨pre, c, post, he, hpre, hc1, hc2⟩ := (ih _).mp h
          refine ⟨a :: pre, c, post, by rw [he, List.cons_append], ?_, hc1, hc2⟩
          intro d hd
          rcases List.mem_cons.mp hd with rfl | hd
          · exact hdg
          · exact hpre d hd
        · rw [if_neg hdg] at h
          exact ⟨[], a, u, rfl, by simp, Bool.not_eq_true _ ▸ hsp,
            Bool.not_eq_true _ ▸ hdg⟩
    · rintro ⟨pre, c, post, he, hpre, hc1, hc2⟩
      rcases pre with _ | ⟨p0, pre⟩
      · rw [List.nil_append] at he
        injection he with he1 he2
        subst he1
        rw [fromDecLoop, if_neg (by rw [hc1]; exact Bool.false_ne_true),
          if_neg (by rw [hc2]; exact Bool.false_ne_true)]
      · rw [List.cons_append] at he
        injection he with he1 he2
        subst he1
        have hp0 : isDigitC a = true := hpre a (List.mem_cons_self _ _)
        rw [fromDecLoop, if_neg (by rw [isDigitC_not_isSpaceC hp0]; exact Bool.false_ne_true),
          if_pos hp0]
        exact (ih _).mpr ⟨pre, c, post, he2,
          fun d hd => hpre d (List.mem_cons_of_mem _ hd), hc1, hc2⟩

theorem big_from_dec_none_iff (s : List Char) :
    big_from_dec s = none ↔ badDecInput s := by
  rcases hss : scanStart s with _ | ⟨c0, t⟩
  · simp only [big_from_dec, hss]
    constructor
    · intro _
      left
      intro c hc
      rw [hss, List.head?_nil] at hc
      cases hc
    · intro _
      rw [if_neg (by rw [List.headD_nil]; exact fun h => Bool.false_ne_true h)]
  · simp only [big_from_dec, hss, List.headD_cons]
    by_cases hdg : isDigitC c0 = true
    · rw [if_pos hdg]
      rcases hfl : fromDecLoop big_zero (c0 :: t) with _ | y
      · constructor
        · intro _
          right
          obtain ⟨pre, c, post, he, hpre, hc1, hc2⟩ :=
            (fromDecLoop_none_iff (c0 :: t) big_zero).mp hfl
          exact ⟨pre, c, post, hss.trans he, hpre, hc1, hc2⟩
        · intro _; rfl
      · constructor
        · intro h; cases h
        · rintro (hbad | ⟨pre, c, post, he, hpre, hc1, hc2⟩)
          · have := hbad c0 (by rw [hss, List.head?_cons])
            rw [hdg] at this
            cases this
          · have : fromDecLoop big_zero (c0 :: t) = none :=
              (fromDecLoop_none_iff (c0 :: t) big_zero).mpr
                ⟨pre, c, post, hss.symm.trans he, hpre, hc1, hc2⟩
            rw [hfl] at this
            cases this
    · rw [if_neg hdg]
      constructor
      · intro _
        left
        intro c hc
        rw [hss, List.head?_cons] at hc
        rw [← Option.some.inj hc]
        exact Bool.not_eq_true _ ▸ hdg
      · intro _; rfl

/-! ### The schoolbook multiplier -/

theorem getD_lt_of_bounded {z : List Nat} (hb : ∀ l ∈ z, l < B) (pos : Nat) :
    z.getD pos 0 < B := by
  rcases Nat.lt_or_ge pos z.length with h | h
  · rw [List.getD_eq_getElem?_getD, List.getElem?_eq_getElem h, Option.getD_some]
    exact hb _ (List.getElem_mem h)
  · rw [List.getD_eq_default _ _ h]
    exact B_pos

theorem getD_set_ne (z : List Nat) (pos q v : Nat) (h : pos ≠ q) :
    (z.set pos v).getD q 0 = z.getD q 0 := by
  rw [List.getD_eq_getElem?_getD, List.getD_eq_getElem?_getD,
    List.getElem?_set_ne h]

theorem bounded_set {z : List Nat} (hb : ∀ l ∈ z, l < B) {v : Nat}
    (hv : v < B) (pos : Nat) : ∀ l ∈ z.set pos v, l < B := by
  intro l hl
  rcases List.mem_or_eq_of_mem_set hl with h | rfl
  · exact hb l h
  · exact hv

theorem val_set (z : List Nat) : ∀ pos : Nat, pos < z.length → ∀ v : Nat,
    val (z.set pos v) + z.getD pos 0 * B ^ pos = val z + v * B ^ pos := by
  induction z with
  | nil => intro pos h; simp at h
  | cons d rest ih =>
    intro pos h v
    cases pos with
    | zero =>
      simp only [List.set_cons_zero, val_cons, List.getD_cons_zero, pow_zero]
      ring
    | succ p =>
      have hp : p < rest.length := by simpa using h
      simp only [List.set_cons_succ, val_cons, List.getD_cons_succ, pow_succ]
      calc d + B * val (rest.set p v) + rest.getD p 0 * (B ^ p * B)
          = d + B * (val (rest.set p v) + rest.getD p 0 * B ^ p) := by ring
        _ = d + B * (val rest + v * B ^ p) := by rw [ih p hp v]
        _ = d + B * val rest + v * (B ^ p * B) := by ring

/-- The product of two limbs plus two limbs stays under `B^2` (so the widened
64-bit intermediates of the C code are exact). -/
theorem limb_sum_lt_sq {g a b c : Nat} (hg : g < B) (ha : a < B) (hb : b < B)
    (hc : c < B) : g + a * b + c < B * B := by
  have hB := B_pos
  obtain ⟨n, hn⟩ : ∃ n, B = n + 1 := ⟨B - 1, by omega⟩
  rw [hn] at hg ha hb hc ⊢
  have h1 : a * b ≤ n * n :=
    Nat.mul_le_mul (Nat.lt_succ_iff.mp ha) (Nat.lt_succ_iff.mp hb)
  have h4 : g + a * b + c ≤ n + n * n + n :=
    Nat.add_le_add (Nat.add_le_add (Nat.lt_succ_iff.mp hg) h1)
      (Nat.lt_succ_iff.mp hc)
  have h5 : n + n * n + n < (n + 1) * (n + 1) := by
    have he : (n + 1) * (n + 1) = (n + n * n + n) + 1 := by ring
    rw [he]
    exact Nat.lt_succ_of_le (Nat.le_refl _)
  exact Nat.lt_of_le_of_lt h4 h5

theorem mulRow_spec (bd : List Nat) : ∀ (z : List Nat) (pos carry ai : Nat),
    (∀ l ∈ z, l < B) → (∀ l ∈ bd, l < B) → ai < B → carry < B →
    pos + bd.length < z.length → z.getD (pos + bd.length) 0 = 0 →
    val (mulRow z ai bd pos carry) = val z + (ai * val bd + carry) * B ^ pos
    ∧ (mulRow z ai bd pos carry).length = z.length
    ∧ (∀ l ∈ mulRow z ai bd pos carry, l < B)
    ∧ (∀ q, pos + bd.length < q →
        (mulRow z ai bd pos carry).getD q 0 = z.getD q 0)
    ∧ mulRow z ai bd pos carry = mulRowX z ai bd pos carry := by
  induction bd with
  | nil =>
    intro z pos carry ai hbz hbb hai hc hlen hzero
    simp only [List.length_nil, Nat.add_zero] at hlen hzero
    simp only [mulRow, mulRowX, hzero, Nat.zero_add, Nat.mod_eq_of_lt hc]
    refine ⟨?_, List.length_set z pos carry, bounded_set hbz hc pos, ?_, by trivial⟩
    · have := val_set z pos hlen carry
      rw [hzero, Nat.zero_mul, Nat.add_zero] at this
      rw [this, val_nil, Nat.mul_zero, Nat.zero_add]
    · intro q hq
      exact getD_set_ne z pos q carry (by omega)
  | cons bj brest ih =>
    intro z pos carry ai hbz hbb hai hc hlen hzero
    simp only [List.length_cons] at hlen hzero
    have hposlt : pos < z.length := by omega
    have hgd : z.getD pos 0 < B := getD_lt_of_bounded hbz pos
    have hbj : bj < B := hbb bj (List.mem_cons_self _ _)
    have hsumlt : z.getD pos 0 + ai * bj + carry < B * B :=
      limb_sum_lt_sq hgd hai hbj hc
    have hcarry : (z.getD pos 0 + ai * bj + carry) / B < B := by
      rw [Nat.div_lt_iff_lt_mul B_pos]
      exact hsumlt
    have hmod : (z.getD pos 0 + ai * bj + carry) % B < B := Nat.mod_lt _ B_pos
    have hbz1 : ∀ l ∈ z.set pos ((z.getD pos 0 + ai * bj + carry) % B), l < B :=
      bounded_set hbz hmod pos
    have hlen1 : (pos + 1) + brest.length
        < (z.set pos ((z.getD pos 0 + ai * bj + carry) % B)).length := by
      rw [List.length_set]
      omega
    have hzero1 : (z.set pos ((z.getD pos 0 + ai * bj + carry) % B)).getD
        ((pos + 1) + brest.length) 0 = 0 := by
      rw [getD_set_ne _ _ _ _ (by omega)]
      have he : pos + (brest.length + 1) = pos + 1 + brest.length := by omega
      rw [← he]
      exact hzero
    obtain ⟨v1, l1, b1, u1, x1⟩ :=
      ih (z.set pos ((z.getD pos 0 + ai * bj + carry) % B)) (pos + 1)
        ((z.getD pos 0 + ai * bj + carry) / B) ai hbz1
        (fun l hl => hbb l (List.mem_cons_of_mem _ hl)) hai hcarry hlen1 hzero1
    have hset := val_set z pos hposlt ((z.getD pos 0 + ai * bj + carry) % B)
    have hdm : (z.getD pos 0 + ai * bj + carry) % B
        + B * ((z.getD pos 0 + ai * bj + carry) / B)
        = z.getD pos 0 + ai * bj + carry := by
      rw [Nat.add_comm]
      exact Nat.div_add_mod _ B
    refine ⟨?_, ?_, ?_, ?_, ?_⟩
    · show val (mulRow (z.set pos ((z.getD pos 0 + ai * bj + carry) % B)) ai
          brest (pos + 1) ((z.getD pos 0 + ai * bj + carry) / B))
        = val z + (ai * val (bj :: brest) + carry) * B ^ pos
      have key : val (z.set pos ((z.getD pos 0 + ai * bj + carry) % B))
            + (ai * val brest + (z.getD pos 0 + ai * bj + carry) / B) * B ^ (pos + 1)
            + z.getD pos 0 * B ^ pos
          = val z + (ai * val (bj :: brest) + carry) * B ^ pos
            + z.getD pos 0 * B ^ pos := by
        calc val (z.set pos ((z.getD pos 0 + ai * bj + carry) % B))
              + (ai * val brest + (z.getD pos 0 + ai * bj + carry) / B) * B ^ (pos + 1)
              + z.getD pos 0 * B ^ pos
            = (val (z.set pos ((z.getD pos 0 + ai * bj + carry) % B))
                + z.getD pos 0 * B ^ pos)
              + (ai * val brest + (z.getD pos 0 + ai * bj + carry) / B) * B ^ (pos + 1) := by
              ring
          _ = (val z + ((z.getD pos 0 + ai * bj + carry) % B) * B ^ pos)
              + (ai * val brest + (z.getD pos 0 + ai * bj + carry) / B) * B ^ (pos + 1) := by
              rw [hset]
          _ = val z + (((z.getD pos 0 + ai * bj + carry) % B
                + B * ((z.getD pos 0 + ai * bj + carry) / B))
                + B * (ai * val brest)) * B ^ pos := by
              rw [pow_succ]
              ring
          _ = val z + ((z.getD pos 0 + ai * bj + carry)
                + B * (ai * val brest)) * B ^ pos := by
              rw [hdm]
          _ = val z + (ai * val (bj :: brest) + carry) * B ^ pos
                + z.getD pos 0 * B ^ pos := by
              rw [val_cons]
              ring
      rw [v1]
      exact Nat.add_right_cancel key
    · show (mulRow (z.set pos ((z.getD pos 0 + ai * bj + carry) % B)) ai
          brest (pos + 1) ((z.getD pos 0 + ai * bj + carry) / B)).length = z.length
      rw [l1, List.length_set]
    · exact b1
    · intro q hq
      simp only [List.length_cons] at hq
      show (mulRow (z.set pos ((z.getD pos 0 + ai * bj + carry) % B)) ai
          brest (pos + 1) ((z.getD pos 0 + ai * bj + carry) / B)).getD q 0
        = z.getD q 0
      rw [u1 q (by omega), getD_set_ne _ _ _ _ (by omega)]
    · show mulRow (z.set pos ((z.getD pos 0 + ai * bj + carry) % B)) ai
          brest (pos + 1) ((z.getD pos 0 + ai * bj + carry) / B)
        = mulRowX z ai (bj :: brest) pos carry
      rw [x1]
      rfl

theorem mulRows_spec (a : List Nat) : ∀ (z bd : List Nat) (i : Nat),
    (∀ l ∈ z, l < B) → (∀ l ∈ a, l < B) → (∀ l ∈ bd, l < B) → bd ≠ [] →
    z.length = i + a.length + bd.length →
    (∀ q, i + bd.length ≤ q → z.getD q 0 = 0) →
    val (mulRows z a bd i) = val z + val a * val bd * B ^ i
    ∧ (∀ l ∈ mulRows z a bd i, l < B)
    ∧ (mulRows z a bd i).length = z.length
    ∧ mulRows z a bd i = mulRowsX z a bd i := by
  induction a with
  | nil =>
    intro z bd i hbz hba hbb hbne hlen hzero
    refine ⟨?_, hbz, rfl, rfl⟩
    rw [mulRows, val_nil, Nat.zero_mul, Nat.zero_mul, Nat.add_zero]
  | cons ai arest ih =>
    intro z bd i hbz hba hbb hbne hlen hzero
    simp only [List.length_cons] at hlen
    have hai : ai < B := hba ai (List.mem_cons_self _ _)
    have hlt : i + bd.length < z.length := by
      have hb1 : 0 < arest.length + 1 := Nat.succ_pos _
      omega
    obtain ⟨rv, rl, rb, ru, rx⟩ :=
      mulRow_spec bd z i 0 ai hbz hbb hai B_pos hlt (hzero _ (Nat.le_refl _))
    have hlen1 : (mulRow z ai bd i 0).length
        = (i + 1) + arest.length + bd.length := by
      rw [rl]
      omega
    have hzero1 : ∀ q, (i + 1) + bd.length ≤ q →
        (mulRow z ai bd i 0).getD q 0 = 0 := by
      intro q hq
      rw [ru q (by omega)]
      exact hzero q (by omega)
    obtain ⟨v1, b1, l1, x1⟩ :=
      ih (mulRow z ai bd i 0) bd (i + 1) rb
        (fun l hl => hba l (List.mem_cons_of_mem _ hl)) hbb hbne hlen1 hzero1
    refine ⟨?_, b1, by rw [mulRows, l1, rl], ?_⟩
    · show val (mulRows (mulRow z ai bd i 0) arest bd (i + 1))
        = val z + val (ai :: arest) * val bd * B ^ i
      rw [v1, rv, val_cons, Nat.add_zero, pow_succ]
      ring
    · show mulRows (mulRow z ai bd i 0) arest bd (i + 1)
        = mulRowsX z (ai :: arest) bd i
      rw [x1, rx]
      rfl

theorem val_replicate_zero (n : Nat) : val (List.replicate n 0) = 0 := by
  induction n with
  | zero => rfl
  | succ n ih => rw [List.replicate_succ, val_cons, ih, Nat.mul_zero]

theorem bounded_replicate (n : Nat) : ∀ l ∈ List.replicate n (0 : Nat), l < B := by
  intro l hl
  rw [List.eq_of_mem_replicate hl]
  exact B_pos

theorem getD_replicate_zero (n q : Nat) :
    (List.replicate n (0 : Nat)).getD q 0 = 0 := by
  induction n generalizing q with
  | zero => rfl
  | succ n ih =>
    rw [List.replicate_succ]
    cases q with
    | zero => rfl
    | succ q => rw [List.getD_cons_succ]; exact ih q

/-- `big_mul`, characterized: value-correct, produces only I1/I2-canonical
bounded buffers, sends zero operands to canonical zero, represents a zero
product only as canonical zero, and its loops agree with the
exact-final-carry variant. -/
theorem big_mul_spec (a b : List Nat) (ha : GoodBig a) (hb : GoodBig b) :
    val (big_mul a b) = val a * val b
    ∧ GoodBig (big_mul a b)
    ∧ ((a = big_zero ∨ b = big_zero) → big_mul a b = big_zero)
    ∧ (val (big_mul a b) = 0 → big_mul a b = big_zero) := by
  obtain ⟨hane, ha1, hab⟩ := ha
  obtain ⟨hbne, hb1, hbb⟩ := hb
  by_cases hz : a = [] ∨ b = [] ∨ a = big_zero ∨ b = big_zero
  · rw [big_mul, if_pos hz]
    refine ⟨?_, ?_, fun _ => rfl, fun _ => rfl⟩
    · rw [val_big_zero]
      rcases hz with h | h | h | h
      · exact absurd h hane
      · exact absurd h hbne
      · rw [h, val_big_zero, Nat.zero_mul]
      · rw [h, val_big_zero, Nat.mul_zero]
    · refine ⟨by rw [big_zero]; exact List.cons_ne_nil _ _, ?_, ?_⟩
      · intro h; rw [big_zero] at h; simp at h
      · intro l hl
        rw [big_zero, List.mem_singleton] at hl
        exact hl ▸ B_pos
  · push_neg at hz
    obtain ⟨haz, hbz, ha0, hb0⟩ := hz
    rw [big_mul, if_neg (by push_neg; exact ⟨haz, hbz, ha0, hb0⟩)]
    obtain ⟨v1, b1, l1, x1⟩ :=
      mulRows_spec a (List.replicate (a.length + b.length) 0) b 0
        (bounded_replicate _) hab hbb hbz
        (by rw [List.length_replicate]; omega)
        (fun q _ => getD_replicate_zero _ q)
    have hvraw : val (mulRows (List.replicate (a.length + b.length) 0) a b 0)
        = val a * val b := by
      rw [v1, val_replicate_zero, Nat.zero_add, pow_zero, Nat.mul_one]
    refine ⟨?_, goodBig_fixZero_normalize _ b1, ?_, fun h => fixZero_normalize_eq_zero h⟩
    · rw [val_fixZero_normalize, hvraw]
    · rintro (h | h)
      · exact absurd h ha0
      · exact absurd h hb0

/-! ### Uniqueness of the canonical representation -/

theorem trim_tail {d : Nat} {xs : List Nat} (h : (d :: xs).getLastD 0 ≠ 0)
    (hne : xs ≠ []) : xs.getLastD 0 ≠ 0 := by
  rcases xs with _ | ⟨x0, xs'⟩
  · exact absurd rfl hne
  · have hsome : (x0 :: xs').getLast?
        = some ((x0 :: xs').getLast (List.cons_ne_nil _ _)) :=
      List.getLast?_eq_getLast _ _
    rw [List.getLastD_cons, List.getLastD_eq_getLast?, hsome, Option.getD_some] at h
    rw [List.getLastD_eq_getLast?, hsome, Option.getD_some]
    exact h

theorem val_inj_trim : ∀ x y : List Nat, (∀ l ∈ x, l < B) → (∀ l ∈ y, l < B) →
    (x = [] ∨ x.getLastD 0 ≠ 0) → (y = [] ∨ y.getLastD 0 ≠ 0) →
    val x = val y → x = y := by
  intro x
  induction x with
  | nil =>
    intro y _ hby _ hty h
    rcases hty with rfl | hl
    · rfl
    · by_cases hy : y = []
      · exact hy.symm
      · have hpos := val_pos_of_getLastD hy hl
        rw [← h, val_nil] at hpos
        exact absurd hpos (Nat.lt_irrefl 0)
  | cons d xs ih =>
    intro y hbx hby htx hty h
    have htx' : (d :: xs).getLastD 0 ≠ 0 := by
      rcases htx with h0 | h0
      · exact absurd h0 (List.cons_ne_nil d xs)
      · exact h0
    rcases y with _ | ⟨e, ys⟩
    · have hpos := val_pos_of_getLastD (List.cons_ne_nil d xs) htx'
      rw [h, val_nil] at hpos
      exact absurd hpos (Nat.lt_irrefl 0)
    · have hty' : (e :: ys).getLastD 0 ≠ 0 := by
        rcases hty with h0 | h0
        · exact absurd h0 (List.cons_ne_nil e ys)
        · exact h0
      have hd : d < B := hbx d (List.mem_cons_self _ _)
      have he : e < B := hby e (List.mem_cons_self _ _)
      rw [val_cons, val_cons] at h
      have hmod : d = e := by
        have h1 : (d + B * val xs) % B = (e + B * val ys) % B := by rw [h]
        rw [Nat.add_mul_mod_self_left, Nat.add_mul_mod_self_left,
          Nat.mod_eq_of_lt hd, Nat.mod_eq_of_lt he] at h1
        exact h1
      subst hmod
      have hv : val xs = val ys :=
        Nat.eq_of_mul_eq_mul_left B_pos (Nat.add_left_cancel h)
      by_cases hxs : xs = []
      · by_cases hys : ys = []
        · rw [hxs, hys]
        · have hys' := trim_tail hty' hys
          have hpos := val_pos_of_getLastD hys hys'
          rw [← hv, hxs, val_nil] at hpos
          exact absurd hpos (Nat.lt_irrefl 0)
      · by_cases hys : ys = []
        · have hxs' := trim_tail htx' hxs
          have hpos := val_pos_of_getLastD hxs hxs'
          rw [hv, hys, val_nil] at hpos
          exact absurd hpos (Nat.lt_irrefl 0)
        · rw [ih ys (fun l hl => hbx l (List.mem_cons_of_mem _ hl))
            (fun l hl => hby l (List.mem_cons_of_mem _ hl))
            (Or.inr (trim_tail htx' hxs)) (Or.inr (trim_tail hty' hys)) hv]

theorem goodBig_trim {x : List Nat} (hg : GoodBig x) (hv : val x ≠ 0) :
    x.getLastD 0 ≠ 0 := by
  obtain ⟨hne, h1, hb⟩ := hg
  rcases x with _ | ⟨l, rest⟩
  · exact absurd rfl hne
  · rcases rest with _ | ⟨m, r⟩
    · have hval : val (l :: []) = l := by
        rw [val_cons, val_nil, Nat.mul_zero, Nat.add_zero]
      intro h0
      have hl0 : l = 0 := by simpa using h0
      exact hv (by rw [hval, hl0])
    · exact h1 (by simp)

theorem goodBig_val_zero {x : List Nat} (hg : GoodBig x) (hv : val x = 0) :
    x = big_zero := by
  obtain ⟨hne, h1, hb⟩ := hg
  have hall := (val_eq_zero_iff x).mp hv
  rcases x with _ | ⟨l, rest⟩
  · exact absurd rfl hne
  · rcases rest with _ | ⟨m, r⟩
    · rw [big_zero, hall l (List.mem_cons_self _ _)]
    · exact absurd (hall _ (getLastD_mem (List.cons_ne_nil _ _))) (h1 (by simp))



/-! ### Output-shape helpers for the hex formatter and the parser -/

theorem print_hex_refines (x : List Nat) (hg : GoodBig x) :
    big_print_hex x = to_hex_spec x := by
  by_cases hv : val x = 0
  · rw [goodBig_val_zero hg hv]
    have h1 : big_print_hex big_zero = "0x0" := rfl
    have h2 : to_hex_spec big_zero = "0x0" := rfl
    rw [h1, h2]
  · obtain ⟨hne, h1, hb⟩ := hg
    have hnz : x ≠ big_zero := fun h => hv (by rw [h, val_big_zero])
    have hcond : ¬(x = [] ∨ x = big_zero) := by
      rintro (h | h)
      · exact hne h
      · exact hnz h
    have hrev : x.reverse = x.getLast hne :: x.dropLast.reverse := by
      conv_lhs => rw [← List.dropLast_append_getLast hne]
      rw [List.reverse_append, List.reverse_singleton, List.singleton_append]
    have hlast : x.getLastD 0 = x.getLast hne := by
      rw [List.getLastD_eq_getLast?, List.getLast?_eq_getLast x hne, Option.getD_some]
    rw [big_print_hex, if_neg hcond, to_hex_spec, if_neg hv, hrev, hlast]

theorem big_from_dec_some_shape {s : List Char} {x : List Nat}
    (h : big_from_dec s = some x) : ∃ y, x = fixZero (big_normalize y) := by
  by_cases hdg : isDigitC ((scanStart s).headD (Char.ofNat 0)) = true
  · rw [big_from_dec, if_pos hdg] at h
    rcases hfl : fromDecLoop big_zero (scanStart s) with _ | y
    · rw [hfl] at h
      simp at h
    · rw [hfl] at h
      exact ⟨y, (Option.some.inj h).symm⟩
  · rw [big_from_dec, if_neg hdg] at h
    cases h

theorem invariantI12_fixZero_normalize (y : List Nat) :
    InvariantI12 (fixZero (big_normalize y)) := by
  refine ⟨List.length_pos.mpr (fixZero_ne_nil _), ?_,
    fun h => fixZero_normalize_eq_zero h⟩
  intro hlen
  by_cases hn : big_normalize y = []
  · rw [fixZero, if_pos hn] at hlen
    rw [big_zero] at hlen
    simp at hlen
  · rw [fixZero, if_neg hn]
    rcases big_normalize_getLastD y with h | h
    · exact absurd h hn
    · exact h


/-! ### The claims -/

/-- C1: for canonical Big Integers `a` and `b` (I1/I2 with 32-bit limbs),
`big_mul a b` is a normalized canonical Big Integer whose numeric value is
`val a * val b`, and if either operand is canonical zero the result is the
canonical zero form.  (Non-mutation of `a` and `b` holds by construction: the
embedding, like the C code, only writes through the output buffer `z`.) -/
theorem C1_big_mul_correct (a b : List Nat) (ha : GoodBig a) (hb : GoodBig b) :
    val (big_mul a b) = val a * val b
    ∧ GoodBig (big_mul a b)
    ∧ ((a = big_zero ∨ b = big_zero) → big_mul a b = big_zero) :=
  ⟨(big_mul_spec a b ha hb).1, (big_mul_spec a b ha hb).2.1,
    (big_mul_spec a b ha hb).2.2.1⟩

theorem C1_witness :
    val (big_mul (2 :: []) (3 :: [])) = val (2 :: []) * val (3 :: [])
    ∧ GoodBig (big_mul (2 :: []) (3 :: []))
    ∧ (((2 : Nat) :: []) = big_zero ∨ ((3 : Nat) :: []) = big_zero →
        big_mul (2 :: []) (3 :: []) = big_zero) :=
  C1_big_mul_correct (2 :: []) (3 :: []) (by decide) (by decide)

/-- C2: every input made of optional leading ASCII whitespace, at most one
`+`, one or more decimal digits, then optionally a whitespace character and
arbitrary trailing content, parses successfully, and the buffer holds exactly
the base-10 value of the digit run, accumulated digit by digit as
`result = result * 10 + digit`. -/
theorem C2_from_dec_well_formed (ws sign digits rest : List Char)
    (hws : ∀ c ∈ ws, isSpaceC c = true)
    (hsign : sign = [] ∨ sign = '+' :: [])
    (hne : digits ≠ []) (hd : ∀ c ∈ digits, isDigitC c = true)
    (hrest : rest = [] ∨ ∃ c t, rest = c :: t ∧ isSpaceC c = true) :
    ∃ x, big_from_dec (ws ++ (sign ++ (digits ++ rest))) = some x
      ∧ val x = decimalAcc 0 digits :=
  from_dec_shape_some ws sign digits rest hws hsign hne hd hrest

theorem C2_witness :
    ∃ x, big_from_dec (' ' :: '+' :: '4' :: '2' :: ' ' :: 'z' :: []) = some x
      ∧ val x = decimalAcc 0 ('4' :: '2' :: []) := by
  simpa using C2_from_dec_well_formed (' ' :: []) ('+' :: [])
    ('4' :: '2' :: []) (' ' :: 'z' :: []) (by decide) (Or.inr rfl)
    (by decide) (by decide) (Or.inr ⟨' ', 'z' :: [], rfl, by decide⟩)

/-- C3 counterexample: parsing "123456789" and "987654321", multiplying with
`big_mul` and rendering with the hex formatter does not yield the claim's
string `0x75cd9045a2a1a` (that string denotes 2072411987651098, not the
product). -/
theorem C3_counterexample :
    (big_from_dec ("123456789".toList)).bind
      (fun a => (big_from_dec ("987654321".toList)).map
        (fun b => big_print_hex (big_mul a b))) ≠ some "0x75cd9045a2a1a" := by
  decide

/-- C3 amended: the rendering is `0x1b13114fbff5385`, the correct lowercase
hex of 123456789 × 987654321 = 121932631112635269, which is also the product
value the multiplier computes. -/
theorem C3_known_product :
    (big_from_dec ("123456789".toList)).bind
      (fun a => (big_from_dec ("987654321".toList)).map
        (fun b => big_print_hex (big_mul a b))) = some "0x1b13114fbff5385"
    ∧ (big_from_dec ("123456789".toList)).bind
      (fun a => (big_from_dec ("987654321".toList)).map
        (fun b => val (big_mul a b))) = some 121932631112635269 :=
  ⟨rfl, rfl⟩

/-- C4 counterexample: `big_normalize` alone applied to the canonical zero
buffer returns the empty buffer, i.e. a buffer of length 0 — the zero-restore
step is not part of `big_normalize` (lines 43–45), it lives in the callers. -/
theorem C4_counterexample : (big_normalize big_zero).length = 0 := rfl

/-- C4 amended: `big_normalize` trims most-significant zero limbs exactly as
the while loop does (it equals dropping the trailing zero run); it returns the
empty buffer precisely when every limb is zero; and the caller-side fix
`if (n == 0) big_zero` restores the canonical zero form, so the combined
normalize-then-fix step used by `big_from_dec` and `big_mul` never yields
length 0. -/
theorem C4_normalize_trims (x : List Nat) :
    big_normalize x = (x.reverse.dropWhile (fun d => d == 0)).reverse
    ∧ (big_normalize x = [] ↔ ∀ l ∈ x, l = 0)
    ∧ fixZero (big_normalize x) ≠ []
    ∧ ((∀ l ∈ x, l = 0) → fixZero (big_normalize x) = big_zero) :=
  ⟨big_normalize_eq_trim x, big_normalize_eq_nil_iff x, fixZero_ne_nil _,
    fun h => by rw [fixZero, if_pos ((big_normalize_eq_nil_iff x).mpr h)]⟩

theorem C4_witness : fixZero (big_normalize (0 :: 0 :: [])) = big_zero :=
  (C4_normalize_trims (0 :: 0 :: [])).2.2.2 (by decide)

/-- C5: on canonical Big Integers the hex formatter produces exactly the
spec-described format (`0x0` for zero; otherwise `0x`, the unpadded
most-significant limb, then each remaining limb most- to least-significant as
8 zero-padded lowercase hex digits, no separators), and the two round-trip
examples hold: 255 renders as `0xff` and 4294967296 as `0x100000000`. -/
theorem C5_print_hex_format :
    (∀ x, GoodBig x → big_print_hex x = to_hex_spec x)
    ∧ (big_from_dec ("255".toList)).map big_print_hex = some "0xff"
    ∧ (big_from_dec ("4294967296".toList)).map big_print_hex = some "0x100000000" :=
  ⟨fun x hg => print_hex_refines x hg, rfl, rfl⟩

theorem C5_witness : big_print_hex (255 :: []) = to_hex_spec (255 :: []) :=
  C5_print_hex_format.1 (255 :: []) (by decide)

/-- C6: `big_from_dec` fails exactly on the claim's condition (after optional
whitespace and at most one `+`, no digit follows, or a character that is
neither digit nor whitespace appears before whitespace or the end of string
terminates the digit run); in particular `""`, `"-5"`, `"12a3"` and `"  "`
all fail. -/
theorem C6_parse_failure :
    (∀ s, big_from_dec s = none ↔ badDecInput s)
    ∧ big_from_dec [] = none
    ∧ big_from_dec ('-' :: '5' :: []) = none
    ∧ big_from_dec ('1' :: '2' :: 'a' :: '3' :: []) = none
    ∧ big_from_dec (' ' :: ' ' :: []) = none :=
  ⟨big_from_dec_none_iff, rfl, rfl, rfl, rfl⟩

/-- C7: on canonical nonzero operands, the carry left after each inner row of
`big_mul` lands on a result position that still holds zero, so the 64-bit sum
`z->d[i+bn] + carry` stays below `2^32` and the truncating `uint32_t` store
loses no information: running the loops with the exact (untruncated) final
add yields the same buffer. -/
theorem C7_final_carry_exact (a b : List Nat) (ha : GoodBig a) (hb : GoodBig b)
    (_haz : a ≠ big_zero) (_hbz : b ≠ big_zero) :
    mulRows (List.replicate (a.length + b.length) 0) a b 0
      = mulRowsX (List.replicate (a.length + b.length) 0) a b 0 := by
  obtain ⟨hane, -, hab⟩ := ha
  obtain ⟨hbne, -, hbb⟩ := hb
  exact (mulRows_spec a (List.replicate (a.length + b.length) 0) b 0
    (bounded_replicate _) hab hbb hbne
    (by rw [List.length_replicate]; omega)
    (fun q _ => getD_replicate_zero _ q)).2.2.2

theorem C7_witness :
    mulRows (List.replicate ((2 :: []).length + (3 :: []).length) 0)
        (2 :: []) (3 :: []) 0
      = mulRowsX (List.replicate ((2 :: []).length + (3 :: []).length) 0)
        (2 :: []) (3 :: []) 0 :=
  C7_final_carry_exact (2 :: []) (3 :: []) (by decide) (by decide)
    (by decide) (by decide)

/-- C8: every Big Integer produced at the public boundaries — by `big_zero`,
by a successful `big_from_dec`, and by `big_mul` — satisfies I1 and I2:
length at least 1, nonzero top limb when the length exceeds 1, and the value
zero only in the canonical single-zero-limb form. -/
theorem C8_boundary_invariants :
    InvariantI12 big_zero
    ∧ (∀ s x, big_from_dec s = some x → InvariantI12 x)
    ∧ (∀ a b, InvariantI12 (big_mul a b)) := by
  refine ⟨by decide, ?_, ?_⟩
  · intro s x h
    obtain ⟨y, rfl⟩ := big_from_dec_some_shape h
    exact invariantI12_fixZero_normalize y
  · intro a b
    by_cases hz : a = [] ∨ b = [] ∨ a = big_zero ∨ b = big_zero
    · rw [big_mul, if_pos hz]
      decide
    · rw [big_mul, if_neg hz]
      exact invariantI12_fixZero_normalize _

theorem C8_witness : InvariantI12 ((7 : Nat) :: []) :=
  C8_boundary_invariants.2.1 ('7' :: []) ((7 : Nat) :: []) (by rfl)

/-- C9: on canonical Big Integers, `big_mul a b` and `big_mul b a` are the
same buffer, and hence render to the same hex string. -/
theorem C9_mul_comm (a b : List Nat) (ha : GoodBig a) (hb : GoodBig b) :
    big_mul a b = big_mul b a
    ∧ big_print_hex (big_mul a b) = big_print_hex (big_mul b a) := by
  obtain ⟨v1, g1, z1, w1⟩ := big_mul_spec a b ha hb
  obtain ⟨v2, g2, z2, w2⟩ := big_mul_spec b a hb ha
  have hvv : val (big_mul a b) = val (big_mul b a) := by
    rw [v1, v2, Nat.mul_comm]
  have heq : big_mul a b = big_mul b a := by
    by_cases hv : val (big_mul a b) = 0
    · rw [w1 hv, w2 (by rw [← hvv]; exact hv)]
    · exact val_inj_trim _ _ g1.2.2 g2.2.2
        (Or.inr (goodBig_trim g1 hv))
        (Or.inr (goodBig_trim g2 (by rw [← hvv]; exact hv)))
        hvv
  exact ⟨heq, by rw [heq]⟩

theorem C9_witness :
    big_mul (2 :: []) (3 :: []) = big_mul (3 :: []) (2 :: [])
    ∧ big_print_hex (big_mul (2 :: []) (3 :: []))
      = big_print_hex (big_mul (3 :: []) (2 :: [])) :=
  C9_mul_comm (2 :: []) (3 :: []) (by decide) (by decide)

/-- C10: a length-0 buffer (the uninitialized empty state that I2 forbids as
a value) is accepted as zero by every consumer: the hex formatter prints
`0x0`, `big_mul` with a length-0 operand short-circuits to canonical zero,
and `big_mul10_add` first resets a length-0 buffer to canonical zero, acting
exactly as it does on the canonical zero buffer. -/
theorem C10_length_zero_as_zero :
    big_print_hex [] = "0x0"
    ∧ (∀ b, big_mul [] b = big_zero)
    ∧ (∀ a, big_mul a [] = big_zero)
    ∧ (∀ d, big_mul10_add [] d = big_mul10_add big_zero d) := by
  refine ⟨rfl, ?_, ?_, fun d => rfl⟩
  · intro b
    rw [big_mul, if_pos (Or.inl rfl)]
  · intro a
    rw [big_mul, if_pos (Or.inr (Or.inl rfl))]

end BigNum
